import Mathlib

/-!
easyPages: a verification development.

A shallow embedding of `main.go` (the easyPages static-site generator) and
proofs about it.

Conventions of the embedding.

* A Go `string` / `[]byte` is a list of bytes (`Bytes`, natural numbers below 256).
* Library calls whose result the program only passes along are parameters:
  the Markdown converter `blackfriday.Run` is `conv`, `template.Parse` and
  `Template.Execute` are fields of `Env`, `strings.ToLower` is `Env.toLower`.
* Library calls whose behaviour the program depends on are modelled from their
  documented semantics: `regexp` (leftmost-first matching, `FindAllIndex`),
  `strings.ReplaceAll`, `strings.TrimSuffix`, `strings.ToUpper` on a one-byte
  string, `filepath.Base`, `filepath.Ext`, `filepath.Clean`, `filepath.Join`,
  `filepath.Dir`, `filepath.Rel`, `filepath.Walk` (on Unix).
* The file system is an explicit map from cleaned paths to file contents; a
  cleaned path is the list of the elements of `filepath.Clean` of its string.
-/

namespace EasyPages

/-! ## Bytes -/

/-- A Go string or byte slice: the list of its bytes. -/
abbrev Bytes := List Nat

/-- The Go slice expression `b[lo:hi]` (for `lo ≤ hi ≤ len(b)`). -/
def slice (b : Bytes) (lo hi : Nat) : Bytes := (b.take hi).drop lo

/-! ## The tag pattern

`regexp.MustCompile` of
`<[a-zA-Z][^>]*>[\s\S]*?</[a-zA-Z][^>]*>|<[a-zA-Z][^>/]*/>|<[a-zA-Z][^>]*>`.

Go's `regexp` returns the leftmost match and, among the matches starting there,
the one a backtracking engine finds first; `Regex.run` is that backtracking
search, with the alternatives and repetitions tried in priority order.  The
pattern is matched on bytes: every literal of the pattern is an ASCII byte and
an ASCII byte is never part of a longer UTF-8 sequence (nor swallowed by an
invalid one), so the rune-wise and byte-wise readings of `[^>]`, `[^>/]` and
`[\s\S]` delimit the same regions. -/

/-- Regular expressions as far as the tag pattern needs them: a one-byte class,
concatenation, prioritised alternation, and greedy (`c*`) or lazy (`c*?`)
repetition of a one-byte class. -/
inductive Regex where
  | cls (p : Nat → Bool)
  | cat (a b : Regex)
  | alt (a b : Regex)
  | star (p : Nat → Bool)
  | starLazy (p : Nat → Bool)

/-- Greedy repetition `c*` followed by the continuation `k`: take as many bytes
as possible, give back one at a time while `k` fails. -/
def greedyStar (p : Nat → Bool) (k : Bytes → Option Nat) : Bytes → Option Nat
  | [] => k []
  | c :: cs =>
    if p c then
      match greedyStar p k cs with
      | some r => some r
      | none => k (c :: cs)
    else k (c :: cs)

/-- Lazy repetition `c*?` followed by the continuation `k`: take as few bytes as
possible, one more each time `k` fails. -/
def lazyStar (p : Nat → Bool) (k : Bytes → Option Nat) : Bytes → Option Nat
  | [] => k []
  | c :: cs =>
    match k (c :: cs) with
    | some r => some r
    | none => if p c then lazyStar p k cs else none

/-- Backtracking match of a regular expression at the start of the input; `k`
is what has to match after it, and the result is what `k` returns on the first
successful path. -/
def Regex.run : Regex → (Bytes → Option Nat) → Bytes → Option Nat
  | .cls p, k, s =>
    match s with
    | [] => none
    | c :: cs => if p c then k cs else none
  | .cat a b, k, s => a.run (b.run k) s
  | .alt a b, k, s =>
    match a.run k s with
    | some r => some r
    | none => b.run k s
  | .star p, k, s => greedyStar p k s
  | .starLazy p, k, s => lazyStar p k s

/-- The least number of bytes a match of the expression consumes. -/
def Regex.minLen : Regex → Nat
  | .cls _ => 1
  | .cat a b => a.minLen + b.minLen
  | .alt a b => min a.minLen b.minLen
  | .star _ => 0
  | .starLazy _ => 0

/-- The class `[a-zA-Z]`. -/
def isLetter (c : Nat) : Bool := (97 ≤ c && c ≤ 122) || (65 ≤ c && c ≤ 90)

/-- A literal byte. -/
def lit (b : Nat) : Regex := .cls (fun c => c == b)

/-- The class `[^>]`. -/
def notGt (c : Nat) : Bool := c != 62

/-- The class `[^>/]`. -/
def notGtSlash (c : Nat) : Bool := c != 62 && c != 47

/-- The class `[\s\S]`: any byte. -/
def anyByte (_ : Nat) : Bool := true

/-- An opening tag: `<[a-zA-Z][^>]*>`. -/
def openTag : Regex :=
  .cat (lit 60) (.cat (.cls isLetter) (.cat (.star notGt) (lit 62)))

/-- A closing tag: `</[a-zA-Z][^>]*>`. -/
def closeTag : Regex :=
  .cat (lit 60) (.cat (lit 47) (.cat (.cls isLetter) (.cat (.star notGt) (lit 62))))

/-- A self-closing tag: `<[a-zA-Z][^>/]*/>`. -/
def selfClosingTag : Regex :=
  .cat (lit 60) (.cat (.cls isLetter) (.cat (.star notGtSlash) (.cat (lit 47) (lit 62))))

/-- The pattern `htmlTagsRegex` of `processMarkdownWithHTML`: an opening tag,
lazily anything, a closing tag; or a self-closing tag; or an opening tag. -/
def htmlTagsRegex : Regex :=
  .alt (.cat openTag (.cat (.starLazy anyByte) closeTag)) (.alt selfClosingTag openTag)

/-- Match of the pattern at the start of `s`: the number of bytes left after the
match. -/
def matchHere (s : Bytes) : Option Nat :=
  htmlTagsRegex.run (fun rest => some rest.length) s

/-- Leftmost match in the suffix `s` of an input of length `n`, as the pair of
its start and end offsets in the input. -/
def findFrom (n : Nat) : Bytes → Option (Nat × Nat)
  | [] => (matchHere []).map (fun r => (n, n - r))
  | c :: cs =>
    match matchHere (c :: cs) with
    | some r => some (n - (cs.length + 1), n - r)
    | none => findFrom n cs

/-- The search of the engine for the leftmost match at or after offset `pos`. -/
def doExecute (b : Bytes) (pos : Nat) : Option (Nat × Nat) :=
  findFrom b.length (b.drop pos)

/-- The loop of `FindAllIndex`: at most `fuel` successive matches from `pos` on,
the search resuming where the previous match ended.  (The library's special
step after an empty match is not needed: the pattern matches no empty string,
see `doExecute_bounds`.) -/
def allMatches (b : Bytes) : Nat → Nat → List (Nat × Nat)
  | 0, _ => []
  | fuel + 1, pos =>
    if pos ≤ b.length then
      match doExecute b pos with
      | none => []
      | some (start, stop) => (start, stop) :: allMatches b fuel stop
    else []

/-- The call `htmlTagsRegex.FindAllIndex(mdContent, -1)`: a negative count means
up to `len(mdContent) + 1` matches. -/
def FindAllIndex (mdContent : Bytes) : List (Nat × Nat) :=
  allMatches mdContent (mdContent.length + 1) 0

/-! ## `processMarkdownWithHTML` -/

/-- The `for _, tagIndices := range htmlTags` loop: the state is `lastIndex` and
the buffer `processedContent`. -/
def tagLoop (conv : Bytes → Bytes) (mdContent : Bytes) :
    List (Nat × Nat) → Nat → Bytes → Nat × Bytes
  | [], lastIndex, processedContent => (lastIndex, processedContent)
  | (start, stop) :: rest, lastIndex, processedContent =>
    let withMarkdown :=
      if start > lastIndex then processedContent ++ conv (slice mdContent lastIndex start)
      else processedContent
    tagLoop conv mdContent rest stop (withMarkdown ++ slice mdContent start stop)

/-- The function `processMarkdownWithHTML`; `conv` is `blackfriday.Run` with the
extensions `CommonExtensions | HardLineBreak`. -/
def processMarkdownWithHTML (conv : Bytes → Bytes) (mdContent : Bytes) : Bytes :=
  let htmlTags := FindAllIndex mdContent
  if htmlTags.length = 0 then conv mdContent
  else
    let st := tagLoop conv mdContent htmlTags 0 []
    if st.1 < mdContent.length then st.2 ++ conv (slice mdContent st.1 mdContent.length)
    else st.2

/-! ## Specification-side definitions for the transformer -/

/-- The matches are non-empty intervals in increasing order, none starting
before `prev`, the end of the one before it, and all inside an input of `len`
bytes: exactly the condition for every slice expression of
`processMarkdownWithHTML` to be within bounds. -/
def MatchesOk (len : Nat) : Nat → List (Nat × Nat) → Prop
  | prev, [] => prev ≤ len
  | prev, (start, stop) :: rest =>
    prev ≤ start ∧ start < stop ∧ stop ≤ len ∧ MatchesOk len stop rest

/-- What a gap between matches contributes: its conversion, and nothing when
the gap is empty. -/
def gapHtml (conv : Bytes → Bytes) (gap : Bytes) : Bytes := if gap = [] then [] else conv gap

/-- The output as the specification words it, from offset `prev` on:
`conv(in[prev:s_1]) ++ in[s_1:e_1] ++ conv(in[e_1:s_2]) ++ ... ++ conv(in[e_n:])`. -/
def piecesFrom (conv : Bytes → Bytes) (input : Bytes) : Nat → List (Nat × Nat) → Bytes
  | prev, [] => gapHtml conv (input.drop prev)
  | prev, (start, stop) :: rest =>
    gapHtml conv (slice input prev start) ++ slice input start stop
      ++ piecesFrom conv input stop rest

/-- The bytes begin with the start of a closing tag: `</` and a letter. -/
def startsCloseTag : Bytes → Bool
  | a :: b :: c :: _ => a == 60 && b == 47 && isLetter c
  | _ => false

/-- The start of a closing tag occurs somewhere in the bytes. -/
def hasCloseTag : Bytes → Bool
  | [] => false
  | c :: cs => startsCloseTag (c :: cs) || hasCloseTag cs

/-- An HTML block as the pattern sees it: the opening tag `<`, a letter, bytes
other than `>`, `>`; the content; the closing tag `</`, a letter, bytes other
than `>`, `>`. -/
def htmlBlock (l : Nat) (attrs content : Bytes) (l2 : Nat) (closeRest : Bytes) : Bytes :=
  60 :: l :: attrs ++ 62 :: (content ++ 60 :: 47 :: l2 :: closeRest ++ [62])

/-- The bytes of `<div><b>x</b></div>`: a well-formed block with a nested element. -/
def nestedBlock : Bytes :=
  [60, 100, 105, 118, 62, 60, 98, 62, 120, 60, 47, 98, 62, 60, 47, 100, 105, 118, 62]
/-! ## Preprocessing of list items -/

/-- The scan of `strings.Replace` for a non-empty `old`: `skip` counts the bytes
of the occurrence just replaced that are still to be passed over, so that
occurrences are found from left to right without overlap. -/
def replaceFrom (old new : Bytes) : Nat → Bytes → Bytes
  | _, [] => []
  | skip + 1, _ :: cs => replaceFrom old new skip cs
  | 0, c :: cs =>
    if old.isPrefixOf (c :: cs) then new ++ replaceFrom old new (old.length - 1) cs
    else c :: replaceFrom old new 0 cs

/-- The call `strings.ReplaceAll(s, old, new)` for a non-empty `old`. -/
def ReplaceAll (s old new : Bytes) : Bytes := replaceFrom old new 0 s

/-- The list preprocessing of `processMarkdownFiles`:
`strings.ReplaceAll(mdStr, "\n- ", "\n\n- ")`. -/
def preprocessLists (mdContent : Bytes) : Bytes :=
  ReplaceAll mdContent [10, 45, 32] [10, 10, 45, 32]

/-- An occurrence of newline + `"- "` begins at the start of the bytes. -/
def bulletAt (s : Bytes) : Bool := [10, 45, 32].isPrefixOf s

/-- The number of occurrences of newline + `"- "` in the bytes. -/
def countBullets : Bytes → Nat
  | [] => 0
  | c :: cs => (if bulletAt (c :: cs) then 1 else 0) + countBullets cs

/-- The rewrite as the specification words it: every byte is kept, and a
newline is put in front of every occurrence of newline + `"- "`. -/
def widenBullets : Bytes → Bytes
  | [] => []
  | c :: cs => if bulletAt (c :: cs) then 10 :: c :: widenBullets cs else c :: widenBullets cs
/-! ## Title derivation -/

/-- The function `os.IsPathSeparator` (on Unix the separator is `/`). -/
def isPathSeparator (c : Nat) : Bool := c == 47

/-- The function `filepath.Base`: the last element of the path, trailing
separators removed first; `.` for the empty path and `/` for a path made of
separators only. -/
def Base (path : Bytes) : Bytes :=
  if path = [] then [46]
  else
    let stripped := path.reverse.dropWhile isPathSeparator
    let last := (stripped.takeWhile (fun c => !isPathSeparator c)).reverse
    if last = [] then [47] else last

/-- The loop of `filepath.Ext`, from the last byte towards the first: `seen` is
the part of the path already passed. -/
def extLoop : Bytes → Bytes → Bytes
  | [], _ => []
  | c :: before, seen =>
    if isPathSeparator c then []
    else if c = 46 then c :: seen
    else extLoop before (c :: seen)

/-- The function `filepath.Ext`: the suffix beginning at the final dot of the
last element of the path, empty when there is no dot. -/
def Ext (path : Bytes) : Bytes := extLoop path.reverse []

/-- The function `strings.HasSuffix`. -/
def HasSuffix (s suffix : Bytes) : Bool := suffix.isSuffixOf s

/-- The function `strings.TrimSuffix`. -/
def TrimSuffix (s suffix : Bytes) : Bytes :=
  if HasSuffix s suffix then s.take (s.length - suffix.length) else s

/-- The function `strings.ToUpper` on a string of one byte, the only strings
the program passes to it (`title[:1]`).  An ASCII byte is a one-letter string:
`a`..`z` map to `A`..`Z`, any other stays.  A byte from 0x80 on is not valid
UTF-8 by itself; `strings.Map` replaces it by U+FFFD, the bytes `EF BF BD`. -/
def ToUpper (s : Bytes) : Bytes :=
  match s with
  | [c] =>
    if c < 128 then (if 97 ≤ c ∧ c ≤ 122 then [c - 32] else [c])
    else [239, 191, 189]
  | other => other

/-- The title derivation of `processMarkdownFiles` from the base name
(source lines 148 to 152). -/
def titleOfBase (baseName : Bytes) : Bytes :=
  let title := TrimSuffix baseName (Ext baseName)
  if title.length > 0 then ToUpper (title.take 1) ++ title.drop 1 else title

/-- The title derivation of `processMarkdownFiles` from the path of the file
(source lines 147 to 152). -/
def deriveTitle (path : Bytes) : Bytes := titleOfBase (Base path)

/-- The name of the output file: `title + ".html"`. -/
def outputName (title : Bytes) : Bytes := title ++ [46, 104, 116, 109, 108]

/-! ## Configuration -/

/-- The struct `Config`. -/
structure Config where
  PagesDir : Bytes
  OutputDir : Bytes
  LayoutFile : Bytes
  Author : Bytes
  WatchMode : Bool
  WatchDelay : Int
  deriving DecidableEq

/-- The struct `TomlConfig`, its two sections flattened. -/
structure TomlConfig where
  PagesDir : Bytes
  OutputDir : Bytes
  LayoutFile : Bytes
  Author : Bytes
  Enabled : Bool
  Delay : Int
  deriving DecidableEq

/-- A config file that parses: for each key, the value it sets, if it sets one. -/
structure TomlFile where
  pagesDir : Option Bytes
  outputDir : Option Bytes
  layoutFile : Option Bytes
  author : Option Bytes
  enabled : Option Bool
  delay : Option Int
  deriving DecidableEq

/-- The call `toml.DecodeFile(*configPath, &tomlConfig)` on the freshly declared
`var tomlConfig TomlConfig`: a key the file does not set leaves the zero value
of its field. -/
def decodeFile (file : TomlFile) : TomlConfig :=
  { PagesDir := file.pagesDir.getD []
    OutputDir := file.outputDir.getD []
    LayoutFile := file.layoutFile.getD []
    Author := file.author.getD []
    Enabled := file.enabled.getD false
    Delay := file.delay.getD 0 }

/-- The default configuration of `main`: `pages`, `dist`, `layout.html`,
`easyPages Team`, no watching, a delay of 5 seconds. -/
def defaultConfig : Config :=
  { PagesDir := [112, 97, 103, 101, 115]
    OutputDir := [100, 105, 115, 116]
    LayoutFile := [108, 97, 121, 111, 117, 116, 46, 104, 116, 109, 108]
    Author := [101, 97, 115, 121, 80, 97, 103, 101, 115, 32, 84, 101, 97, 109]
    WatchMode := false
    WatchDelay := 5 }

/-- The overlay of the config file in `main` (source lines 345 to 362); `none`
is a file that does not exist or does not parse. -/
def overlayToml (config : Config) (file : Option TomlFile) : Config :=
  match file with
  | none => config
  | some f =>
    let tomlConfig := decodeFile f
    { PagesDir := tomlConfig.PagesDir
      OutputDir := tomlConfig.OutputDir
      LayoutFile := tomlConfig.LayoutFile
      Author := tomlConfig.Author
      WatchMode := tomlConfig.Enabled
      WatchDelay := tomlConfig.Delay }

/-- The command-line overrides of `main` (source lines 364 to 387); `cliConfig`
holds the parsed flags, a flag that is not given having its default: the empty
string, `false`, 0.  The test `flag.Lookup("watch").Value.String() == "true"`
is the test of `cliConfig.WatchMode`, the variable the flag is bound to. -/
def applyFlags (config cliConfig : Config) : Config :=
  let config :=
    if cliConfig.PagesDir ≠ [] then { config with PagesDir := cliConfig.PagesDir } else config
  let config :=
    if cliConfig.OutputDir ≠ [] then { config with OutputDir := cliConfig.OutputDir } else config
  let config :=
    if cliConfig.LayoutFile ≠ [] then { config with LayoutFile := cliConfig.LayoutFile }
    else config
  let config :=
    if cliConfig.Author ≠ [] then { config with Author := cliConfig.Author } else config
  let config :=
    if cliConfig.WatchMode = true then { config with WatchMode := true } else config
  if cliConfig.WatchDelay > 0 then { config with WatchDelay := cliConfig.WatchDelay } else config

/-- The configuration `main` resolves. -/
def resolveConfig (file : Option TomlFile) (cliConfig : Config) : Config :=
  applyFlags (overlayToml defaultConfig file) cliConfig

/-- No flag given: every field of `cliConfig` has the default of its flag. -/
def noFlags : Config :=
  { PagesDir := [], OutputDir := [], LayoutFile := [], Author := [],
    WatchMode := false, WatchDelay := 0 }

/-- The precedence as the specification words it, for one setting: the override
when one is given, else the value of the config file when the file is there and
sets the key, else the default. -/
def precedence {α : Type} (override : Option α) (file : Option (Option α)) (dflt : α) : α :=
  match override, file with
  | some v, _ => v
  | none, some (some v) => v
  | none, _ => dflt

/-- The override a parsed string flag stands for: none when it is empty. -/
def givenString (v : Bytes) : Option Bytes := if v = [] then none else some v

/-- The configuration the specification asks for. -/
def specConfig (file : Option TomlFile) (cliConfig : Config) : Config :=
  { PagesDir :=
      precedence (givenString cliConfig.PagesDir) (file.map (·.pagesDir))
        defaultConfig.PagesDir
    OutputDir :=
      precedence (givenString cliConfig.OutputDir) (file.map (·.outputDir))
        defaultConfig.OutputDir
    LayoutFile :=
      precedence (givenString cliConfig.LayoutFile) (file.map (·.layoutFile))
        defaultConfig.LayoutFile
    Author :=
      precedence (givenString cliConfig.Author) (file.map (·.author)) defaultConfig.Author
    WatchMode :=
      precedence (if cliConfig.WatchMode then some true else none) (file.map (·.enabled))
        defaultConfig.WatchMode
    WatchDelay :=
      precedence (if cliConfig.WatchDelay > 0 then some cliConfig.WatchDelay else none)
        (file.map (·.delay)) defaultConfig.WatchDelay }

/-- A config file that sets only `pagesDir`, to `docs`. -/
def onlyPagesDir : TomlFile :=
  { pagesDir := some [100, 111, 99, 115], outputDir := none, layoutFile := none,
    author := none, enabled := none, delay := none }

/-- The file sets every key. -/
def TomlFile.complete (f : TomlFile) : Bool :=
  f.pagesDir.isSome && f.outputDir.isSome && f.layoutFile.isSome && f.author.isSome
    && f.enabled.isSome && f.delay.isSome

/-- The path `pages/é.md`: the name begins with the two bytes `C3 A9` of `é`. -/
def eAcutePath : Bytes := [112, 97, 103, 101, 115, 47, 195, 169, 46, 109, 100]
/-! ## The file system and the two passes

A file is identified by its cleaned path, the list of the elements of
`filepath.Clean` of a path string: a leading `/` is the first element of a
rooted path, `..` elements remain only at the start of a relative path, and the
empty list is `.`.  The paths `filepath.Walk` hands to the walk function are of
this form, being results of `filepath.Join`.  (Only the root is handed over as
the string given, cleaned or not; `os.ReadFile` and `filepath.Rel` treat it as
the cleaned one.) -/

/-- A cleaned path: the list of its elements. -/
abbrev Path := List Bytes

/-- The first element of a rooted path: `/`. -/
def rootMark : Bytes := [47]

/-- The element `..`. -/
def dotDot : Bytes := [46, 46]

/-- The elements of a path string between separators, empty ones included. -/
def splitElems : Bytes → List Bytes
  | [] => [[]]
  | c :: cs =>
    if isPathSeparator c then [] :: splitElems cs
    else
      match splitElems cs with
      | [] => [[c]]
      | e :: es => (c :: e) :: es

/-- One step of `filepath.Clean`: the cleaned path so far, extended by the next
element of the string.  An empty element and `.` are dropped; `..` removes the
element before it, stays at the root, and is kept at the start of a relative
path. -/
def pushElem (p : Path) (e : Bytes) : Path :=
  if e = [] ∨ e = [46] then p
  else if e = dotDot then
    match p.getLast? with
    | none => [dotDot]
    | some top =>
      if top = rootMark then p
      else if top = dotDot then p ++ [dotDot]
      else p.dropLast
  else p ++ [e]

/-- The function `filepath.Clean`, its result as the list of elements. -/
def Clean (s : Bytes) : Path :=
  (splitElems s).foldl pushElem
    (match s with
     | c :: _ => if isPathSeparator c then [rootMark] else []
     | [] => [])

/-- The elements joined by the separator. -/
def joinElems : Path → Bytes
  | [] => []
  | [e] => e
  | e :: rest => e ++ 47 :: joinElems rest

/-- The string of a cleaned path. -/
def pathString (p : Path) : Bytes :=
  match p with
  | [] => [46]
  | m :: rest => if m = rootMark then 47 :: joinElems rest else joinElems (m :: rest)

/-- The string of a cleaned relative path: `.` when it has no element. -/
def relString (r : Path) : Bytes := if r = [] then [46] else joinElems r

/-- The function `filepath.Join` of two strings: the non-empty ones joined by
the separator, cleaned. -/
def Join (a b : Bytes) : Path :=
  if a = [] then Clean b
  else if b = [] then Clean a
  else Clean (a ++ 47 :: b)

/-- The function `filepath.Dir` on a cleaned path: the path without its last
element; the root stays the root. -/
def Dir (p : Path) : Path := if p = [rootMark] then p else p.dropLast

/-- The two paths without their common leading elements. -/
def stripCommon : Path → Path → Path × Path
  | b :: base, t :: target => if b = t then stripCommon base target else (b :: base, t :: target)
  | base, target => (base, target)

/-- The function `filepath.Rel(basepath, targpath)` for a cleaned target: both
are cleaned; a rooted and an unrooted path cannot be related; the common
leading elements are removed; what is left of the base must not begin with
`..` and is climbed by one `..` for each of its elements, and what is left of
the target follows. -/
def Rel (basepath : Bytes) (target : Path) : Option Bytes :=
  let base := Clean basepath
  if (base.head? == some rootMark) != (target.head? == some rootMark) then none
  else
    let rest := stripCommon base target
    if rest.1.head? == some dotDot then none
    else some (relString (List.replicate rest.1.length dotDot ++ rest.2))

/-- The file system: what `os.ReadFile` returns for a path, `none` being an
error. -/
abbrev FS := Path → Option Bytes

/-- The file system after a successful `os.WriteFile(path, data, 0644)`. -/
def FS.write (fs : FS) (path : Path) (data : Bytes) : FS :=
  fun q => if q = path then some data else fs q

/-- The interface `os.FileInfo`, as far as the program reads it. -/
structure FileInfo where
  name : Bytes
  isDir : Bool
  modTime : Int
  deriving DecidableEq

/-- One call of the walk function by `filepath.Walk`: the path, the file info
and whether the walk passes an error. -/
structure Visit where
  path : Path
  info : FileInfo
  err : Bool
  deriving DecidableEq

/-- The errors a pass returns. -/
inductive PassError where
  | layoutRead
  | layoutParse
  | walk
  deriving DecidableEq

/-- The struct `Page`. -/
structure Page where
  Title : Bytes
  Content : Bytes
  GeneratedAt : Bytes
  Author : Bytes
  deriving DecidableEq

/-- The library and the operating system as the passes use them.  A template is
represented by the layout bytes it was parsed from. -/
structure Env where
  /-- The converter `blackfriday.Run` with the extensions of the program. -/
  conv : Bytes → Bytes
  /-- The function `strings.ToLower`. -/
  toLower : Bytes → Bytes
  /-- Whether `template.New("layout").Parse` accepts the layout. -/
  parses : Bytes → Bool
  /-- The method `tmpl.Execute`: the rendered page, `none` being an error. -/
  execute : Bytes → Page → Option Bytes
  /-- The formatted `time.Now()` when the file at the path is rendered. -/
  now : Path → Bytes
  /-- Whether `os.MkdirAll` of the directory succeeds. -/
  mkdirAll : Path → Bool
  /-- Whether `os.WriteFile` to the path succeeds. -/
  writable : Path → Bool

/-- The function `filepath.Walk` seen from the walk function: it is called on
the visits in order, and the first error it returns ends the walk and is the
result. -/
def Walk {σ : Type} (fn : Visit → σ → σ × Option PassError) :
    List Visit → σ → σ × Option PassError
  | [], s => (s, none)
  | v :: vs, s =>
    match fn v s with
    | (s1, some e) => (s1, some e)
    | (s1, none) => Walk fn vs s1

/-- The suffix `.md`. -/
def mdSuffix : Bytes := [46, 109, 100]

/-- The body of the walk function of `processMarkdownFiles` after its two
filters (source lines 129 to 177). -/
def renderFile (env : Env) (config : Config) (layout : Bytes) (v : Visit) (fs : FS) :
    FS × Option PassError :=
  match fs v.path with
  | none => (fs, none)
  | some mdContent =>
    let mdContent := preprocessLists mdContent
    let htmlContent := processMarkdownWithHTML env.conv mdContent
    let title := deriveTitle (pathString v.path)
    let page : Page :=
      { Title := title, Content := htmlContent, GeneratedAt := env.now v.path,
        Author := config.Author }
    match env.execute layout page with
    | none => (fs, none)
    | some html =>
      let outputPath := Join config.OutputDir (outputName title)
      if env.writable outputPath then (fs.write outputPath html, none) else (fs, none)

/-- The walk function of `processMarkdownFiles`. -/
def markdownCallback (env : Env) (config : Config) (layout : Bytes) (v : Visit) (fs : FS) :
    FS × Option PassError :=
  if v.err then (fs, some .walk)
  else if v.info.isDir then (fs, none)
  else if !HasSuffix (env.toLower v.info.name) mdSuffix then (fs, none)
  else renderFile env config layout v fs

/-- The function `processMarkdownFiles`; `visits` is what the walk of
`config.PagesDir` visits. -/
def processMarkdownFiles (env : Env) (config : Config) (visits : List Visit) (fs : FS) :
    FS × Option PassError :=
  match fs (Clean config.LayoutFile) with
  | none => (fs, some .layoutRead)
  | some layoutContent =>
    if env.parses layoutContent then Walk (markdownCallback env config layoutContent) visits fs
    else (fs, some .layoutParse)

/-- The body of the walk function of `copyNonMarkdownFiles` after its two
filters (source lines 203 to 234). -/
def copyFile (env : Env) (config : Config) (v : Visit) (fs : FS) : FS × Option PassError :=
  match Rel config.PagesDir v.path with
  | none => (fs, none)
  | some relPath =>
    let destPath := Join config.OutputDir relPath
    let destDir := Dir destPath
    if !env.mkdirAll destDir then (fs, none)
    else
      match fs v.path with
      | none => (fs, none)
      | some data =>
        if env.writable destPath then (fs.write destPath data, none) else (fs, none)

/-- The walk function of `copyNonMarkdownFiles`. -/
def copyCallback (env : Env) (config : Config) (v : Visit) (fs : FS) : FS × Option PassError :=
  if v.err then (fs, some .walk)
  else if v.info.isDir then (fs, none)
  else if HasSuffix (env.toLower v.info.name) mdSuffix then (fs, none)
  else copyFile env config v fs

/-- The function `copyNonMarkdownFiles`; `visits` is what the walk of
`config.PagesDir` visits. -/
def copyNonMarkdownFiles (env : Env) (config : Config) (visits : List Visit) (fs : FS) :
    FS × Option PassError :=
  Walk (copyCallback env config) visits fs

/-- The Markdown pass selects the file: it passes both filters of the walk
function. -/
def markdownSelects (env : Env) (info : FileInfo) : Bool :=
  !info.isDir && HasSuffix (env.toLower info.name) mdSuffix

/-- The asset pass selects the file: it passes both filters of the walk
function. -/
def assetSelects (env : Env) (info : FileInfo) : Bool :=
  !info.isDir && !HasSuffix (env.toLower info.name) mdSuffix

/-- One file fails in the Markdown pass: it cannot be read, or its page does not
render, or its output file cannot be written. -/
def markdownFails (env : Env) (config : Config) (layout : Bytes) (v : Visit) (fs : FS) : Prop :=
  fs v.path = none
    ∨ (∃ mdContent, fs v.path = some mdContent
        ∧ env.execute layout
            { Title := deriveTitle (pathString v.path)
              Content := processMarkdownWithHTML env.conv (preprocessLists mdContent)
              GeneratedAt := env.now v.path
              Author := config.Author } = none)
    ∨ env.writable (Join config.OutputDir (outputName (deriveTitle (pathString v.path))))
        = false

/-- One file fails in the asset pass: its relative path cannot be computed, or
its destination directory cannot be created, or it cannot be read, or its copy
cannot be written. -/
def copyFails (env : Env) (config : Config) (v : Visit) (fs : FS) : Prop :=
  Rel config.PagesDir v.path = none
    ∨ (∃ relPath, Rel config.PagesDir v.path = some relPath
        ∧ (env.mkdirAll (Dir (Join config.OutputDir relPath)) = false
            ∨ env.writable (Join config.OutputDir relPath) = false))
    ∨ fs v.path = none

/-- ASCII lower-casing, byte by byte: `strings.ToLower` on ASCII names. -/
def asciiLower (s : Bytes) : Bytes := s.map (fun c => if 65 ≤ c ∧ c ≤ 90 then c + 32 else c)

/-- An environment for worked examples: every operation succeeds, the converter
is the identity and a page renders as the layout followed by its content. -/
def plainEnv : Env :=
  { conv := id
    toLower := asciiLower
    parses := fun _ => true
    execute := fun layout page => some (layout ++ page.Content)
    now := fun _ => []
    mkdirAll := fun _ => true
    writable := fun _ => true }
/-! ## Worked inputs -/

/-- The path element `pages`. -/
def pagesName : Bytes := [112, 97, 103, 101, 115]

/-- The file name `hello.md`. -/
def helloName : Bytes := [104, 101, 108, 108, 111, 46, 109, 100]

/-- The file name `a.png`. -/
def pngName : Bytes := [97, 46, 112, 110, 103]

/-- The path element `sub`. -/
def subName : Bytes := [115, 117, 98]

/-- The visit of the regular file `pages/hello.md`. -/
def helloVisit : Visit :=
  { path := [pagesName, helloName], info := { name := helloName, isDir := false, modTime := 7 },
    err := false }

/-- A file system that holds the layout `layout.html` (one byte) and nothing
else: `pages/hello.md` cannot be read. -/
def layoutOnlyFS : FS :=
  fun p => if p = [[108, 97, 121, 111, 117, 116, 46, 104, 116, 109, 108]] then some [76] else none

/-- The map `fileModTimes`, from path strings to modification times (instants
are integers, `After` is `>`). -/
abbrev ModIndex := Bytes → Option Int

/-- The assignment `fileModTimes[key] = t`. -/
def ModIndex.set (idx : ModIndex) (key : Bytes) (t : Int) : ModIndex :=
  fun k => if k = key then some t else idx k

/-- The comparison of one file with the index, in the walk function of the scan
and again for the layout file: `!exists || modTime.After(lastMod)` sets
`filesChanged` and stores the modification time. -/
def compareFile (key : Bytes) (modTime : Int) (st : ModIndex × Bool) : ModIndex × Bool :=
  match st.1 key with
  | some lastMod => if modTime > lastMod then (st.1.set key modTime, true) else st
  | none => (st.1.set key modTime, true)

/-- The walk function of the scan (source lines 278 to 291); the state is the
index and `filesChanged`. -/
def scanCallback (v : Visit) (st : ModIndex × Bool) : (ModIndex × Bool) × Option PassError :=
  if v.err then (st, some .walk)
  else if !v.info.isDir then (compareFile (pathString v.path) v.info.modTime st, none)
  else (st, none)

/-- The check of the layout file (source lines 296 to 304); `layoutStat` is the
result of `os.Stat(config.LayoutFile)`, `none` being an error. -/
def checkLayout (config : Config) (layoutStat : Option FileInfo) (st : ModIndex × Bool) :
    ModIndex × Bool :=
  match layoutStat with
  | some info => compareFile config.LayoutFile info.modTime st
  | none => st

/-- The calls a rebuild makes. -/
inductive PassCall where
  | processMarkdownFiles
  | copyNonMarkdownFiles
  deriving DecidableEq

/-- One cycle of the loop of `watchForChanges` after the sleep: the scan of the
source directory (an error of the walk is only logged), the check of the
layout file, and the rebuild when `filesChanged` is set.  The result is the
index after the cycle and the passes called, in order. -/
def scanCycle (config : Config) (visits : List Visit) (layoutStat : Option FileInfo)
    (fileModTimes : ModIndex) : ModIndex × List PassCall :=
  let walked := Walk scanCallback visits (fileModTimes, false)
  let st := checkLayout config layoutStat walked.1
  (st.1, if st.2 then [PassCall.processMarkdownFiles, PassCall.copyNonMarkdownFiles] else [])

/-- The visits the walk reaches: those before the first one that passes an
error. -/
def reached : List Visit → List Visit
  | [] => []
  | v :: vs => if v.err then [] else v :: reached vs

/-- The files one cycle scans, each with the modification time the cycle sees:
the files that are not directories among the visits the walk reaches, then the
layout file when its `os.Stat` succeeds. -/
def scannedFiles (config : Config) (visits : List Visit) (layoutStat : Option FileInfo) :
    List (Bytes × Int) :=
  ((reached visits).filter (fun v => !v.info.isDir)).map
      (fun v => (pathString v.path, v.info.modTime))
    ++ (match layoutStat with
        | some info => [(config.LayoutFile, info.modTime)]
        | none => [])

/-- The file is absent from the index or has a modification time strictly later
than the stored one. -/
def changedSince (idx : ModIndex) (file : Bytes × Int) : Prop :=
  idx file.1 = none ∨ ∃ lastMod, idx file.1 = some lastMod ∧ lastMod < file.2

/-- The index of the specification's example: `pages/hello.md` stored at time 3. -/
def helloIndex : ModIndex :=
  fun k => if k = pathString [pagesName, helloName] then some 3 else none
/-! ## The matches of the tag pattern -/

theorem greedyStar_consumes (p : Nat → Bool) (k : Bytes → Option Nat) :
    ∀ (s : Bytes) (v : Nat), greedyStar p k s = some v →
      ∃ pre rest, s = pre ++ rest ∧ k rest = some v := by
  intro s
  induction s with
  | nil => intro v h; exact ⟨[], [], rfl, h⟩
  | cons c cs ih =>
    intro v h
    unfold greedyStar at h
    split at h
    · split at h
      · next r hr =>
        obtain ⟨pre, rest, hs, hk⟩ := ih r hr
        cases h
        exact ⟨c :: pre, rest, by simp [hs], hk⟩
      · exact ⟨[], c :: cs, rfl, h⟩
    · exact ⟨[], c :: cs, rfl, h⟩

theorem lazyStar_consumes (p : Nat → Bool) (k : Bytes → Option Nat) :
    ∀ (s : Bytes) (v : Nat), lazyStar p k s = some v →
      ∃ pre rest, s = pre ++ rest ∧ k rest = some v := by
  intro s
  induction s with
  | nil => intro v h; exact ⟨[], [], rfl, h⟩
  | cons c cs ih =>
    intro v h
    unfold lazyStar at h
    split at h
    · next r hr => cases h; exact ⟨[], c :: cs, rfl, hr⟩
    · split at h
      · obtain ⟨pre, rest, hs, hk⟩ := ih v h
        exact ⟨c :: pre, rest, by simp [hs], hk⟩
      · cases h

theorem run_consumes : ∀ (re : Regex) (k : Bytes → Option Nat) (s : Bytes) (v : Nat),
    re.run k s = some v →
      ∃ pre rest, s = pre ++ rest ∧ re.minLen ≤ pre.length ∧ k rest = some v := by
  intro re
  induction re with
  | cls p =>
    intro k s v h
    cases s with
    | nil => simp [Regex.run] at h
    | cons c cs =>
      simp only [Regex.run] at h
      split at h
      · exact ⟨[c], cs, rfl, by simp [Regex.minLen], h⟩
      · cases h
  | cat a b iha ihb =>
    intro k s v h
    simp only [Regex.run] at h
    obtain ⟨pre1, rest1, hs1, hl1, hk1⟩ := iha _ s v h
    obtain ⟨pre2, rest2, hs2, hl2, hk2⟩ := ihb _ rest1 v hk1
    refine ⟨pre1 ++ pre2, rest2, by simp [hs1, hs2], ?_, hk2⟩
    simp only [Regex.minLen, List.length_append]
    omega
  | alt a b iha ihb =>
    intro k s v h
    simp only [Regex.run] at h
    split at h
    · next r hr =>
      obtain ⟨pre, rest, hs, hl, hk⟩ := iha _ s r hr
      cases h
      exact ⟨pre, rest, hs, by simp only [Regex.minLen]; omega, hk⟩
    · obtain ⟨pre, rest, hs, hl, hk⟩ := ihb _ s v h
      exact ⟨pre, rest, hs, by simp only [Regex.minLen]; omega, hk⟩
  | star p =>
    intro k s v h
    simp only [Regex.run] at h
    obtain ⟨pre, rest, hs, hk⟩ := greedyStar_consumes p k s v h
    exact ⟨pre, rest, hs, by simp [Regex.minLen], hk⟩
  | starLazy p =>
    intro k s v h
    simp only [Regex.run] at h
    obtain ⟨pre, rest, hs, hk⟩ := lazyStar_consumes p k s v h
    exact ⟨pre, rest, hs, by simp [Regex.minLen], hk⟩

theorem htmlTagsRegex_minLen : htmlTagsRegex.minLen = 3 := by decide

theorem matchHere_bounds (s : Bytes) (r : Nat) (h : matchHere s = some r) :
    r + 3 ≤ s.length := by
  unfold matchHere at h
  obtain ⟨pre, rest, hs, hl, hk⟩ := run_consumes _ _ s r h
  rw [htmlTagsRegex_minLen] at hl
  simp only [Option.some.injEq] at hk
  subst hs
  simp only [List.length_append]
  omega

theorem findFrom_bounds (n : Nat) : ∀ (s : Bytes) (a b : Nat), s.length ≤ n →
    findFrom n s = some (a, b) → n - s.length ≤ a ∧ a + 3 ≤ b ∧ b ≤ n := by
  intro s
  induction s with
  | nil =>
    intro a b _ h
    simp only [findFrom, Option.map_eq_some'] at h
    obtain ⟨r, hr, _⟩ := h
    have := matchHere_bounds [] r hr
    simp at this
  | cons c cs ih =>
    intro a b hn h
    simp only [findFrom] at h
    simp only [List.length_cons] at hn
    split at h
    · next r hr =>
      have hb := matchHere_bounds (c :: cs) r hr
      simp only [List.length_cons] at hb
      simp only [Option.some.injEq, Prod.mk.injEq] at h
      obtain ⟨ha, hb2⟩ := h
      simp only [List.length_cons]
      omega
    · have := ih a b (by omega) h
      simp only [List.length_cons]
      omega

theorem doExecute_bounds (b : Bytes) (pos start stop : Nat) (hpos : pos ≤ b.length)
    (h : doExecute b pos = some (start, stop)) :
    pos ≤ start ∧ start + 3 ≤ stop ∧ stop ≤ b.length := by
  unfold doExecute at h
  have := findFrom_bounds b.length (b.drop pos) start stop (by simp) h
  simp only [List.length_drop] at this
  omega

theorem allMatches_ok (b : Bytes) : ∀ (fuel pos : Nat), pos ≤ b.length →
    MatchesOk b.length pos (allMatches b fuel pos) := by
  intro fuel
  induction fuel with
  | zero => intro pos h; simpa [allMatches, MatchesOk] using h
  | succ fuel ih =>
    intro pos h
    simp only [allMatches, h, if_true]
    split
    · simpa [MatchesOk] using h
    · next start stop hm =>
      have hb := doExecute_bounds b pos start stop h hm
      exact ⟨hb.1, by omega, hb.2.2, ih stop hb.2.2⟩

theorem FindAllIndex_ok (b : Bytes) : MatchesOk b.length 0 (FindAllIndex b) :=
  allMatches_ok b _ 0 (Nat.zero_le _)

/-! ## The transformer: pieces in order -/

theorem slice_eq_nil_of_le (b : Bytes) (lo hi : Nat) (h : hi ≤ lo) : slice b lo hi = [] := by
  unfold slice
  apply List.drop_eq_nil_of_le
  simp only [List.length_take]
  omega

theorem slice_ne_nil (b : Bytes) (lo hi : Nat) (h : lo < hi) (hb : hi ≤ b.length) :
    slice b lo hi ≠ [] := by
  intro hnil
  have hlen := congrArg List.length hnil
  simp only [slice, List.length_drop, List.length_take, List.length_nil] at hlen
  omega

theorem slice_full (b : Bytes) (lo : Nat) : slice b lo b.length = b.drop lo := by
  simp [slice]

theorem slice_append_drop (b : Bytes) (lo hi : Nat) (h : lo ≤ hi) (hb : hi ≤ b.length) :
    slice b lo hi ++ b.drop hi = b.drop lo := by
  unfold slice
  have h1 : lo ≤ (b.take hi).length := by simp only [List.length_take]; omega
  rw [← List.drop_append_of_le_length h1, List.take_append_drop]

theorem tagLoop_pieces (conv : Bytes → Bytes) (md : Bytes) :
    ∀ (ms : List (Nat × Nat)) (last : Nat) (buf : Bytes), MatchesOk md.length last ms →
      (let st := tagLoop conv md ms last buf
       if st.1 < md.length then st.2 ++ conv (slice md st.1 md.length) else st.2)
        = buf ++ piecesFrom conv md last ms := by
  intro ms
  induction ms with
  | nil =>
    intro last buf h
    simp only [MatchesOk] at h
    simp only [tagLoop, piecesFrom, gapHtml, slice_full]
    by_cases hl : last < md.length
    · have : md.drop last ≠ [] := by
        intro hnil
        have := congrArg List.length hnil
        simp only [List.length_drop, List.length_nil] at this
        omega
      simp [hl, this]
    · have : md.drop last = [] := List.drop_eq_nil_of_le (by omega)
      simp [hl, this]
  | cons m rest ih =>
    intro last buf h
    obtain ⟨start, stop⟩ := m
    obtain ⟨h1, h2, h3, h4⟩ := h
    simp only [tagLoop, piecesFrom]
    rw [ih stop _ h4]
    by_cases hs : start > last
    · have : slice md last start ≠ [] := slice_ne_nil md last start hs (by omega)
      simp [hs, gapHtml, this]
    · have : slice md last start = [] := slice_eq_nil_of_le md last start (by omega)
      simp [hs, gapHtml, this]

theorem piecesFrom_id (md : Bytes) : ∀ (ms : List (Nat × Nat)) (prev : Nat),
    MatchesOk md.length prev ms → piecesFrom id md prev ms = md.drop prev := by
  intro ms
  induction ms with
  | nil => intro prev _; simp [piecesFrom, gapHtml]
  | cons m rest ih =>
    intro prev h
    obtain ⟨start, stop⟩ := m
    obtain ⟨h1, h2, h3, h4⟩ := h
    simp only [piecesFrom]
    rw [ih stop h4]
    have hg : gapHtml id (slice md prev start) = slice md prev start := by
      simp [gapHtml]
    rw [hg, List.append_assoc, slice_append_drop md start stop (by omega) h3,
      slice_append_drop md prev start h1 (by omega)]

theorem process_eq_pieces (conv : Bytes → Bytes) (md : Bytes) (h : FindAllIndex md ≠ []) :
    processMarkdownWithHTML conv md = piecesFrom conv md 0 (FindAllIndex md) := by
  unfold processMarkdownWithHTML
  have hlen : (FindAllIndex md).length ≠ 0 := by simpa using h
  simp only [hlen, if_false]
  have := tagLoop_pieces conv md (FindAllIndex md) 0 [] (FindAllIndex_ok md)
  simpa using this

/-- C8. When the tag pattern finds no region in the buffer, the transformer
returns the conversion of the whole buffer, made in one call of the converter. -/
theorem no_tags_whole_buffer_converted (conv : Bytes → Bytes) (mdContent : Bytes)
    (h : FindAllIndex mdContent = []) :
    processMarkdownWithHTML conv mdContent = conv mdContent := by
  simp [processMarkdownWithHTML, h]

/-- Witness of C8 on the buffer `# Hi`. -/
theorem no_tags_whole_buffer_converted_witness :
    FindAllIndex [35, 32, 72, 105] = [] ∧
      ∀ conv : Bytes → Bytes,
        processMarkdownWithHTML conv [35, 32, 72, 105] = conv [35, 32, 72, 105] :=
  ⟨by decide, fun conv => no_tags_whole_buffer_converted conv [35, 32, 72, 105] (by decide)⟩

/-- C9. With at least one matched region the output is
`conv(in[0:s_1]) ++ in[s_1:e_1] ++ ... ++ in[s_n:e_n] ++ conv(in[e_n:])`, an
empty gap contributing nothing; the matches are non-empty, increasing,
non-overlapping and inside the buffer, so every slice is within bounds; and the
pieces cover the input exactly: with the identity for the converter the
transformer is the identity. -/
theorem tagged_buffer_pieces (conv : Bytes → Bytes) (mdContent : Bytes)
    (h : FindAllIndex mdContent ≠ []) :
    processMarkdownWithHTML conv mdContent
        = piecesFrom conv mdContent 0 (FindAllIndex mdContent)
      ∧ MatchesOk mdContent.length 0 (FindAllIndex mdContent)
      ∧ piecesFrom id mdContent 0 (FindAllIndex mdContent) = mdContent
      ∧ processMarkdownWithHTML id mdContent = mdContent := by
  have hok := FindAllIndex_ok mdContent
  have hid := piecesFrom_id mdContent (FindAllIndex mdContent) 0 hok
  simp only [List.drop_zero] at hid
  refine ⟨process_eq_pieces conv mdContent h, hok, hid, ?_⟩
  rw [process_eq_pieces id mdContent h, hid]

/-- Witness of C9 on the buffer `a<b>c`: one match, `[1, 4)`. -/
theorem tagged_buffer_pieces_witness :
    FindAllIndex [97, 60, 98, 62, 99] = [(1, 4)] ∧
      ∀ conv : Bytes → Bytes,
        processMarkdownWithHTML conv [97, 60, 98, 62, 99]
          = piecesFrom conv [97, 60, 98, 62, 99] 0 (FindAllIndex [97, 60, 98, 62, 99]) :=
  ⟨by decide, fun conv => (tagged_buffer_pieces conv [97, 60, 98, 62, 99] (by decide)).1⟩

/-! ## A single block -/


theorem greedyStar_stop (p : Nat → Bool) (k : Bytes → Option Nat)
    (hk : ∀ x xs, p x = true → k (x :: xs) = none) (c : Nat) (rest : Bytes)
    (hc : p c = false) :
    ∀ a : Bytes, (∀ x ∈ a, p x = true) → greedyStar p k (a ++ c :: rest) = k (c :: rest) := by
  intro a
  induction a with
  | nil => intro _; simp [greedyStar, hc]
  | cons x a ih =>
    intro ha
    have hx : p x = true := ha x (List.mem_cons_self _ _)
    have ih2 := ih (fun y hy => ha y (List.mem_cons_of_mem _ hy))
    show greedyStar p k (x :: (a ++ c :: rest)) = k (c :: rest)
    rw [greedyStar]
    simp only [hx, if_true]
    rw [ih2]
    cases hkc : k (c :: rest) with
    | none => simp [hk x _ hx]
    | some r => rfl

theorem lazyStar_hit (p : Nat → Bool) (k : Bytes → Option Nat) (s : Bytes) (r : Nat)
    (h : k s = some r) : lazyStar p k s = some r := by
  cases s with
  | nil => simpa [lazyStar] using h
  | cons c cs => simp [lazyStar, h]

theorem lazyStar_skip (k : Bytes → Option Nat) (tail : Bytes) :
    ∀ content : Bytes,
      (∀ pre t, content = pre ++ t → t ≠ [] → k (t ++ tail) = none) →
      lazyStar anyByte k (content ++ tail) = lazyStar anyByte k tail := by
  intro content
  induction content with
  | nil => intro _; rfl
  | cons x content ih =>
    intro h
    have h0 : k (x :: content ++ tail) = none := h [] (x :: content) rfl (by simp)
    have ih2 := ih (fun pre t ht hne => h (x :: pre) t (by simp [ht]) hne)
    simp only [List.cons_append] at h0 ⊢
    simp [lazyStar, h0, anyByte, ih2]

theorem closeTag_none (k : Bytes → Option Nat) (s : Bytes) (h : startsCloseTag s = false) :
    closeTag.run k s = none := by
  match s with
  | [] => simp [closeTag, lit, Regex.run]
  | [a] =>
    by_cases ha : a = 60 <;> simp [closeTag, lit, Regex.run, ha]
  | [a, b] =>
    by_cases ha : a = 60 <;> by_cases hb : b = 47 <;> simp [closeTag, lit, Regex.run, ha, hb]
  | a :: b :: c :: rest =>
    simp only [startsCloseTag, Bool.and_eq_false_imp, Bool.and_eq_true, beq_iff_eq] at h
    by_cases ha : a = 60
    · by_cases hb : b = 47
      · have hc := h ⟨ha, hb⟩
        simp [closeTag, lit, Regex.run, ha, hb, hc]
      · simp [closeTag, lit, Regex.run, ha, hb]
    · simp [closeTag, lit, Regex.run, ha]

theorem hasCloseTag_suffix : ∀ (pre t : Bytes), hasCloseTag (pre ++ t) = false →
    hasCloseTag t = false := by
  intro pre
  induction pre with
  | nil => intro t h; simpa using h
  | cons x pre ih =>
    intro t h
    simp only [List.cons_append, hasCloseTag, Bool.or_eq_false_iff] at h
    exact ih t h.2

theorem startsCloseTag_straddle (t rest : Bytes) (hne : t ≠ []) (h : hasCloseTag t = false) :
    startsCloseTag (t ++ 60 :: rest) = false := by
  match t, hne, h with
  | [a], _, _ => cases rest <;> simp [startsCloseTag]
  | [a, b], _, _ => simp [startsCloseTag, isLetter]
  | a :: b :: c :: more, _, h =>
    simp only [hasCloseTag, Bool.or_eq_false_iff] at h
    simpa [startsCloseTag] using h.1

theorem run_cat (a b : Regex) (k : Bytes → Option Nat) (s : Bytes) :
    (Regex.cat a b).run k s = a.run (b.run k) s := rfl

theorem run_cls_cons (p : Nat → Bool) (k : Bytes → Option Nat) (c : Nat) (cs : Bytes)
    (h : p c = true) : (Regex.cls p).run k (c :: cs) = k cs := by
  simp [Regex.run, h]

theorem run_cls_cons_none (p : Nat → Bool) (k : Bytes → Option Nat) (c : Nat) (cs : Bytes)
    (h : p c = false) : (Regex.cls p).run k (c :: cs) = none := by
  simp [Regex.run, h]

theorem run_lit_cons (b : Nat) (k : Bytes → Option Nat) (cs : Bytes) :
    (lit b).run k (b :: cs) = k cs :=
  run_cls_cons _ k b cs (by simp)

theorem run_star (p : Nat → Bool) (k : Bytes → Option Nat) (s : Bytes) :
    (Regex.star p).run k s = greedyStar p k s := rfl

theorem run_starLazy (p : Nat → Bool) (k : Bytes → Option Nat) (s : Bytes) :
    (Regex.starLazy p).run k s = lazyStar p k s := rfl

theorem run_alt_some (a b : Regex) (k : Bytes → Option Nat) (s : Bytes) (r : Nat)
    (h : a.run k s = some r) : (Regex.alt a b).run k s = some r := by
  simp [Regex.run, h]

theorem run_notGt_star_gt (k : Bytes → Option Nat) (body rest : Bytes)
    (hbody : ∀ x ∈ body, x ≠ 62) :
    (Regex.cat (.star notGt) (lit 62)).run k (body ++ 62 :: rest) = k rest := by
  rw [run_cat, run_star,
    greedyStar_stop notGt ((lit 62).run k)
      (by intro x xs hx
          exact run_cls_cons_none _ k x xs (by simpa [notGt] using hx))
      62 rest (by simp [notGt]) body (by intro x hx; simpa [notGt] using hbody x hx),
    run_lit_cons]

theorem openTag_run (k : Bytes → Option Nat) (l : Nat) (attrs rest : Bytes)
    (hl : isLetter l = true) (hattrs : ∀ x ∈ attrs, x ≠ 62) :
    openTag.run k (60 :: l :: (attrs ++ 62 :: rest)) = k rest := by
  unfold openTag
  rw [run_cat, run_lit_cons, run_cat, run_cls_cons _ _ _ _ hl,
    run_notGt_star_gt k attrs rest hattrs]

theorem closeTag_run (k : Bytes → Option Nat) (l2 : Nat) (closeRest rest : Bytes)
    (hl2 : isLetter l2 = true) (hclose : ∀ x ∈ closeRest, x ≠ 62) :
    closeTag.run k (60 :: 47 :: l2 :: (closeRest ++ 62 :: rest)) = k rest := by
  unfold closeTag
  rw [run_cat, run_lit_cons, run_cat, run_lit_cons, run_cat, run_cls_cons _ _ _ _ hl2,
    run_notGt_star_gt k closeRest rest hclose]

theorem matchHere_htmlBlock (l : Nat) (attrs content : Bytes) (l2 : Nat) (closeRest : Bytes)
    (hl : isLetter l = true) (hattrs : ∀ x ∈ attrs, x ≠ 62)
    (hcontent : hasCloseTag content = false)
    (hl2 : isLetter l2 = true) (hclose : ∀ x ∈ closeRest, x ≠ 62) :
    matchHere (htmlBlock l attrs content l2 closeRest) = some 0 := by
  have hshape : htmlBlock l attrs content l2 closeRest
      = 60 :: l :: (attrs ++ 62 :: (content ++ 60 :: 47 :: l2 :: (closeRest ++ 62 :: []))) := by
    simp [htmlBlock]
  have hlazy : lazyStar anyByte (closeTag.run (fun rest => some rest.length))
      (content ++ 60 :: 47 :: l2 :: (closeRest ++ 62 :: [])) = some 0 := by
    rw [lazyStar_skip (closeTag.run (fun rest => some rest.length))
      (60 :: 47 :: l2 :: (closeRest ++ 62 :: [])) content
      (by intro pre t ht hne
          apply closeTag_none
          apply startsCloseTag_straddle t _ hne
          exact hasCloseTag_suffix pre t (ht ▸ hcontent))]
    exact lazyStar_hit _ _ _ _ (by rw [closeTag_run _ l2 closeRest [] hl2 hclose]; rfl)
  unfold matchHere htmlTagsRegex
  apply run_alt_some
  rw [hshape, run_cat, openTag_run _ l attrs _ hl hattrs, run_cat, run_starLazy]
  exact hlazy

theorem matchHere_nil : matchHere [] = none := by decide

theorem FindAllIndex_htmlBlock (l : Nat) (attrs content : Bytes) (l2 : Nat) (closeRest : Bytes)
    (hl : isLetter l = true) (hattrs : ∀ x ∈ attrs, x ≠ 62)
    (hcontent : hasCloseTag content = false)
    (hl2 : isLetter l2 = true) (hclose : ∀ x ∈ closeRest, x ≠ 62) :
    FindAllIndex (htmlBlock l attrs content l2 closeRest)
      = [(0, (htmlBlock l attrs content l2 closeRest).length)] := by
  have hm := matchHere_htmlBlock l attrs content l2 closeRest hl hattrs hcontent hl2 hclose
  generalize hb : htmlBlock l attrs content l2 closeRest = blk at hm
  have hlen : 7 ≤ blk.length := by
    rw [← hb]; simp [htmlBlock]; omega
  obtain ⟨c, cs, hcs⟩ : ∃ c cs, blk = c :: cs := by
    cases blk with
    | nil => simp at hlen
    | cons c cs => exact ⟨c, cs, rfl⟩
  have hfirst : doExecute blk 0 = some (0, blk.length) := by
    unfold doExecute
    rw [List.drop_zero]
    subst hcs
    simp [findFrom, hm]
  have hlast : doExecute blk blk.length = none := by
    unfold doExecute
    simp [findFrom, matchHere_nil]
  obtain ⟨n, hn⟩ : ∃ n, blk.length = n + 1 := ⟨blk.length - 1, by omega⟩
  unfold FindAllIndex
  rw [allMatches]
  simp only [Nat.zero_le, if_true, hfirst]
  rw [hn, allMatches, ← hn]
  simp [hlast]

/-- C1, amended. A buffer that is one HTML block whose content holds no start of
a closing tag (no `</` followed by a letter) is one match of the pattern, and
the transformer returns it byte for byte whatever the converter is: the
converter is not used. -/
theorem single_block_verbatim (conv : Bytes → Bytes) (l : Nat) (attrs content : Bytes)
    (l2 : Nat) (closeRest : Bytes)
    (hl : isLetter l = true) (hattrs : ∀ x ∈ attrs, x ≠ 62)
    (hcontent : hasCloseTag content = false)
    (hl2 : isLetter l2 = true) (hclose : ∀ x ∈ closeRest, x ≠ 62) :
    processMarkdownWithHTML conv (htmlBlock l attrs content l2 closeRest)
      = htmlBlock l attrs content l2 closeRest := by
  have hf := FindAllIndex_htmlBlock l attrs content l2 closeRest hl hattrs hcontent hl2 hclose
  unfold processMarkdownWithHTML
  rw [hf]
  simp [tagLoop, slice]

/-- Witness of amended C1 on `<p a>x<br>y</p>`. -/
theorem single_block_verbatim_witness :
    htmlBlock 112 [32, 97] [120, 60, 98, 114, 62, 121] 112 []
        = [60, 112, 32, 97, 62, 120, 60, 98, 114, 62, 121, 60, 47, 112, 62]
      ∧ ∀ conv : Bytes → Bytes,
        processMarkdownWithHTML conv (htmlBlock 112 [32, 97] [120, 60, 98, 114, 62, 121] 112 [])
          = htmlBlock 112 [32, 97] [120, 60, 98, 114, 62, 121] 112 [] :=
  ⟨by decide, fun conv =>
    single_block_verbatim conv 112 [32, 97] [120, 60, 98, 114, 62, 121] 112 []
      (by decide) (by decide) (by decide) (by decide) (by decide)⟩

theorem FindAllIndex_nestedBlock : FindAllIndex nestedBlock = [(0, 13)] := by decide

/-- C1 as stated fails. On the well-formed block `<div><b>x</b></div>` the
pattern matches lazily up to the first closing tag, `<div><b>x</b>`; the rest,
`</div>`, is handed to the converter, so the output is the input only for a
converter that happens to leave `</div>` as it is. -/
theorem nested_block_not_verbatim :
    (∀ conv : Bytes → Bytes,
      processMarkdownWithHTML conv nestedBlock
        = [60, 100, 105, 118, 62, 60, 98, 62, 120, 60, 47, 98, 62]
            ++ conv [60, 47, 100, 105, 118, 62])
      ∧ ¬ (∀ conv : Bytes → Bytes, processMarkdownWithHTML conv nestedBlock = nestedBlock) := by
  have hall : ∀ conv : Bytes → Bytes,
      processMarkdownWithHTML conv nestedBlock
        = [60, 100, 105, 118, 62, 60, 98, 62, 120, 60, 47, 98, 62]
            ++ conv [60, 47, 100, 105, 118, 62] := by
    intro conv
    unfold processMarkdownWithHTML
    rw [FindAllIndex_nestedBlock]
    simp [tagLoop, slice, nestedBlock]
  refine ⟨hall, ?_⟩
  intro h
  have h1 := h (fun _ => [])
  rw [hall] at h1
  revert h1
  decide

theorem matchHere_no_lt (s : Bytes) (h : ∀ c cs, s = c :: cs → c ≠ 60) : matchHere s = none := by
  cases s with
  | nil => exact matchHere_nil
  | cons c cs =>
    have hc : (c == 60) = false := by simpa using h c cs rfl
    simp [matchHere, htmlTagsRegex, openTag, selfClosingTag, lit, Regex.run, hc]

theorem findFrom_no_lt (n : Nat) : ∀ s : Bytes, (∀ x ∈ s, x ≠ 60) → findFrom n s = none := by
  intro s
  induction s with
  | nil => intro _; simp [findFrom, matchHere_nil]
  | cons c cs ih =>
    intro h
    have hm : matchHere (c :: cs) = none :=
      matchHere_no_lt _ (fun c1 cs1 heq => by
        simp only [List.cons.injEq] at heq
        rw [← heq.1]
        exact h c (List.mem_cons_self _ _))
    simp only [findFrom, hm]
    exact ih (fun x hx => h x (List.mem_cons_of_mem _ hx))

/-- A buffer without the byte `<` has no match of the tag pattern. -/
theorem FindAllIndex_no_lt (md : Bytes) (h : ∀ x ∈ md, x ≠ 60) : FindAllIndex md = [] := by
  unfold FindAllIndex
  rw [allMatches]
  simp only [Nat.zero_le, if_true]
  have : doExecute md 0 = none := by
    unfold doExecute
    rw [List.drop_zero]
    exact findFrom_no_lt _ md h
  rw [this]
/-! ## Preprocessing of list items -/

theorem bulletAt_iff (s : Bytes) : bulletAt s = true ↔ ∃ rest, s = 10 :: 45 :: 32 :: rest := by
  unfold bulletAt
  match s with
  | [] => simp [List.isPrefixOf]
  | [a] => simp [List.isPrefixOf]
  | [a, b] => simp [List.isPrefixOf]
  | a :: b :: c :: rest =>
    simp only [List.isPrefixOf, Bool.and_eq_true, beq_iff_eq, Bool.and_true]
    constructor
    · rintro ⟨h1, h2, h3⟩
      exact ⟨rest, by rw [← h1, ← h2, ← h3]⟩
    · rintro ⟨r, hr⟩
      simp only [List.cons.injEq] at hr
      omega

theorem widenBullets_bullet (rest : Bytes) :
    widenBullets (10 :: 45 :: 32 :: rest) = 10 :: 10 :: 45 :: 32 :: widenBullets rest := by
  have h1 : bulletAt (10 :: 45 :: 32 :: rest) = true := (bulletAt_iff _).2 ⟨rest, rfl⟩
  have h2 : bulletAt (45 :: 32 :: rest) = false := by
    cases h : bulletAt (45 :: 32 :: rest) with
    | false => rfl
    | true => obtain ⟨r, hr⟩ := (bulletAt_iff _).1 h; simp at hr
  have h3 : bulletAt (32 :: rest) = false := by
    cases h : bulletAt (32 :: rest) with
    | false => rfl
    | true => obtain ⟨r, hr⟩ := (bulletAt_iff _).1 h; simp at hr
  simp [widenBullets, h1, h2, h3]

theorem preprocessLists_eq_widen : ∀ (n : Nat) (s : Bytes), s.length ≤ n →
    preprocessLists s = widenBullets s := by
  intro n
  induction n with
  | zero =>
    intro s hs
    have : s = [] := List.eq_nil_of_length_eq_zero (by omega)
    subst this
    rfl
  | succ n ih =>
    intro s hs
    cases s with
    | nil => rfl
    | cons c cs =>
      cases hb : bulletAt (c :: cs) with
      | true =>
        obtain ⟨rest, hr⟩ := (bulletAt_iff _).1 hb
        rw [hr, widenBullets_bullet]
        have hlen : rest.length ≤ n := by
          have := congrArg List.length hr
          simp only [List.length_cons] at this hs
          omega
        have := ih rest hlen
        simp only [preprocessLists, ReplaceAll] at this ⊢
        simp [replaceFrom, List.isPrefixOf, this]
      | false =>
        have hlen : cs.length ≤ n := by simp only [List.length_cons] at hs; omega
        have := ih cs hlen
        simp only [preprocessLists, ReplaceAll] at this ⊢
        unfold bulletAt at hb
        simp [replaceFrom, hb, widenBullets, bulletAt, this]

theorem widenBullets_length (s : Bytes) :
    (widenBullets s).length = s.length + countBullets s := by
  induction s with
  | nil => rfl
  | cons c cs ih =>
    simp only [widenBullets, countBullets]
    split <;> simp [ih] <;> omega

theorem widenBullets_head (s : Bytes) (x : Nat) (t : Bytes) (h : widenBullets s = x :: t) :
    ∃ cs, s = x :: cs := by
  cases s with
  | nil => simp [widenBullets] at h
  | cons c cs =>
    simp only [widenBullets] at h
    split at h
    · next hb =>
      obtain ⟨rest, hr⟩ := (bulletAt_iff _).1 hb
      simp only [List.cons.injEq] at h hr
      exact ⟨cs, by rw [hr.1, ← h.1]⟩
    · simp only [List.cons.injEq] at h
      exact ⟨cs, by rw [h.1]⟩

theorem widenBullets_not_bullet (s : Bytes) : bulletAt (widenBullets s) = false := by
  cases hb : bulletAt (widenBullets s) with
  | false => rfl
  | true =>
    exfalso
    obtain ⟨post, hp⟩ := (bulletAt_iff _).1 hb
    obtain ⟨cs, hs⟩ := widenBullets_head s 10 _ hp
    subst hs
    cases hb1 : bulletAt (10 :: cs) with
    | true =>
      obtain ⟨rest, hr⟩ := (bulletAt_iff _).1 hb1
      rw [hr, widenBullets_bullet] at hp
      simp at hp
    | false =>
      simp only [widenBullets, hb1, Bool.false_eq_true, if_false, List.cons.injEq, true_and] at hp
      obtain ⟨cs1, hs1⟩ := widenBullets_head cs 45 _ hp
      subst hs1
      have hb2 : bulletAt (45 :: cs1) = false := by
        cases h : bulletAt (45 :: cs1) with
        | false => rfl
        | true => obtain ⟨r, hr⟩ := (bulletAt_iff _).1 h; simp at hr
      simp only [widenBullets, hb2, Bool.false_eq_true, if_false, List.cons.injEq, true_and] at hp
      obtain ⟨cs2, hs2⟩ := widenBullets_head cs1 32 _ hp
      subst hs2
      have : bulletAt (10 :: 45 :: 32 :: cs2) = true := (bulletAt_iff _).2 ⟨cs2, rfl⟩
      rw [this] at hb1
      cases hb1

theorem widenBullets_blank_line : ∀ (s pre post : Bytes),
    widenBullets s = pre ++ 10 :: 45 :: 32 :: post → ∃ pre0, pre = pre0 ++ [10] := by
  intro s
  induction s with
  | nil =>
    intro pre post h
    have := congrArg List.length h
    simp [widenBullets] at this
    omega
  | cons c cs ih =>
    intro pre post h
    cases pre with
    | nil =>
      exfalso
      have hb : bulletAt (widenBullets (c :: cs)) = true :=
        (bulletAt_iff _).2 ⟨post, by simpa using h⟩
      rw [widenBullets_not_bullet] at hb
      cases hb
    | cons p pre1 =>
      cases hb : bulletAt (c :: cs) with
      | false =>
        simp only [widenBullets, hb, Bool.false_eq_true, if_false, List.cons_append,
          List.cons.injEq] at h
        obtain ⟨pre0, h0⟩ := ih pre1 post h.2
        exact ⟨p :: pre0, by simp [h0]⟩
      | true =>
        simp only [widenBullets, hb, if_true, List.cons_append, List.cons.injEq] at h
        obtain ⟨hp, h2⟩ := h
        cases pre1 with
        | nil => exact ⟨[], by simp [← hp]⟩
        | cons q pre2 =>
          simp only [List.cons_append, List.cons.injEq] at h2
          obtain ⟨pre0, h0⟩ := ih pre2 post h2.2
          exact ⟨p :: q :: pre0, by simp [h0]⟩

/-- C10. The text handed to the transformer is the file content with a newline
put in front of every occurrence of newline + `"- "` and every byte of the
content kept; it is longer than the content by the number of those
occurrences; in it every occurrence of newline + `"- "` follows a newline; and
`"# Hi\n- a\n- b"` becomes `"# Hi\n\n- a\n\n- b"`. -/
theorem preprocess_widens_bullets (mdContent : Bytes) :
    preprocessLists mdContent = widenBullets mdContent
      ∧ (preprocessLists mdContent).length = mdContent.length + countBullets mdContent
      ∧ (∀ pre post : Bytes, preprocessLists mdContent = pre ++ 10 :: 45 :: 32 :: post →
          ∃ pre0, pre = pre0 ++ [10])
      ∧ preprocessLists [35, 32, 72, 105, 10, 45, 32, 97, 10, 45, 32, 98]
          = [35, 32, 72, 105, 10, 10, 45, 32, 97, 10, 10, 45, 32, 98] := by
  have h := preprocessLists_eq_widen mdContent.length mdContent (Nat.le_refl _)
  refine ⟨h, ?_, ?_, by decide⟩
  · rw [h, widenBullets_length]
  · intro pre post hp
    rw [h] at hp
    exact widenBullets_blank_line mdContent pre post hp

/-! ## Title derivation and configuration -/

theorem titleOfBase_ascii (baseName : Bytes) (c : Nat) (rest : Bytes)
    (h : TrimSuffix baseName (Ext baseName) = c :: rest) (hc : c < 128) :
    titleOfBase baseName = (if 97 ≤ c ∧ c ≤ 122 then c - 32 else c) :: rest := by
  unfold titleOfBase
  simp only [h, List.length_cons, Nat.zero_lt_succ, if_true, List.take_succ_cons, List.take_zero,
    List.drop_succ_cons, List.drop_zero, ToUpper, hc]
  split <;> rfl

theorem titleOfBase_empty_stem (baseName : Bytes)
    (h : TrimSuffix baseName (Ext baseName) = []) : titleOfBase baseName = [] := by
  simp [titleOfBase, h]

/-- C2 at the failing input. For `pages/é.md` the code upper-cases the one-byte
string `title[:1]`, the lone byte `C3`, which is not a character: the title
comes out as U+FFFD followed by the stray byte `A9`, not as `É` (`C3 89`), and
the bytes after the first are not those of the stem either. -/
theorem title_of_multibyte_first_char :
    deriveTitle eAcutePath = [239, 191, 189, 169]
      ∧ deriveTitle eAcutePath ≠ [195, 137]
      ∧ outputName (deriveTitle eAcutePath) = [239, 191, 189, 169, 46, 104, 116, 109, 108] := by
  decide

/-- The precedence of the specification holds when no config file is loaded and
when the loaded file sets every key. -/
theorem resolveConfig_precedence (file : Option TomlFile) (cliConfig : Config)
    (h : ∀ f, file = some f → f.complete = true) :
    resolveConfig file cliConfig = specConfig file cliConfig := by
  obtain ⟨p, o, l, a, w, d⟩ := cliConfig
  cases file with
  | none =>
    simp only [resolveConfig, overlayToml, applyFlags, specConfig, Option.map_none', givenString]
    by_cases hp : p = [] <;> by_cases ho : o = [] <;> by_cases hl : l = [] <;>
      by_cases ha : a = [] <;> by_cases hd : d > 0 <;> cases w <;>
      simp [hp, ho, hl, ha, hd, precedence]
  | some f =>
    have hf := h f rfl
    obtain ⟨fp, fo, fl, fa, fe, fd⟩ := f
    simp only [TomlFile.complete, Bool.and_eq_true, Option.isSome_iff_exists] at hf
    obtain ⟨⟨⟨⟨⟨⟨vp, hvp⟩, ⟨vo, hvo⟩⟩, ⟨vl, hvl⟩⟩, ⟨va, hva⟩⟩, ⟨ve, hve⟩⟩, ⟨vd, hvd⟩⟩ := hf
    subst hvp hvo hvl hva hve hvd
    simp only [resolveConfig, overlayToml, decodeFile, applyFlags, specConfig, Option.map_some',
      givenString, Option.getD_some]
    by_cases hp : p = [] <;> by_cases ho : o = [] <;> by_cases hl : l = [] <;>
      by_cases ha : a = [] <;> by_cases hd : d > 0 <;> cases w <;>
      simp [hp, ho, hl, ha, hd, precedence]

/-- C3 at the failing input. With a config file that sets only `pagesDir` and no
flag given, the code leaves the output directory, the layout file and the
author empty and the delay 0, where the specification asks for the defaults
`dist`, `layout.html`, `easyPages Team` and 5. -/
theorem config_file_clobbers_defaults :
    resolveConfig (some onlyPagesDir) noFlags
        = { PagesDir := [100, 111, 99, 115], OutputDir := [], LayoutFile := [], Author := [],
            WatchMode := false, WatchDelay := 0 }
      ∧ specConfig (some onlyPagesDir) noFlags
        = { PagesDir := [100, 111, 99, 115], OutputDir := [100, 105, 115, 116],
            LayoutFile := [108, 97, 121, 111, 117, 116, 46, 104, 116, 109, 108],
            Author := [101, 97, 115, 121, 80, 97, 103, 101, 115, 32, 84, 101, 97, 109],
            WatchMode := false, WatchDelay := 5 }
      ∧ resolveConfig (some onlyPagesDir) noFlags ≠ specConfig (some onlyPagesDir) noFlags := by
  decide

/-! ## The two passes -/

theorem Walk_append {σ : Type} (fn : Visit → σ → σ × Option PassError) :
    ∀ (pre post : List Visit) (s : σ),
      Walk fn (pre ++ post) s
        = match Walk fn pre s with
          | (s1, some e) => (s1, some e)
          | (s1, none) => Walk fn post s1 := by
  intro pre
  induction pre with
  | nil => intro post s; rfl
  | cons v pre ih =>
    intro post s
    show Walk fn (v :: (pre ++ post)) s = _
    simp only [Walk]
    rcases hfn : fn v s with ⟨s1, _ | e⟩
    · exact ih post s1
    · rfl

theorem Walk_skip {σ : Type} (fn : Visit → σ → σ × Option PassError)
    (pre : List Visit) (v : Visit) (post : List Visit) (s : σ)
    (h : fn v (Walk fn pre s).1 = ((Walk fn pre s).1, none)) :
    Walk fn (pre ++ v :: post) s = Walk fn (pre ++ post) s := by
  rw [Walk_append, Walk_append]
  rcases hw : Walk fn pre s with ⟨s1, _ | e⟩
  · rw [hw] at h
    simp only [Walk, h]
  · rfl

theorem Walk_error {σ : Type} (fn : Visit → σ → σ × Option PassError)
    (hfn : ∀ v s e, (fn v s).2 = some e → v.err = true) :
    ∀ (visits : List Visit) (s : σ) (e : PassError), (Walk fn visits s).2 = some e →
      ∃ v ∈ visits, v.err = true := by
  intro visits
  induction visits with
  | nil => intro s e h; simp [Walk] at h
  | cons v vs ih =>
    intro s e h
    simp only [Walk] at h
    rcases hv : fn v s with ⟨s1, _ | e1⟩
    · rw [hv] at h
      obtain ⟨u, hu, hue⟩ := ih s1 e h
      exact ⟨u, List.mem_cons_of_mem _ hu, hue⟩
    · exact ⟨v, List.mem_cons_self _ _, hfn v s e1 (by rw [hv])⟩

theorem renderFile_no_error (env : Env) (config : Config) (layout : Bytes) (v : Visit) (fs : FS) :
    (renderFile env config layout v fs).2 = none := by
  unfold renderFile
  split
  · rfl
  · dsimp only
    split
    · rfl
    · split <;> rfl

theorem copyFile_no_error (env : Env) (config : Config) (v : Visit) (fs : FS) :
    (copyFile env config v fs).2 = none := by
  unfold copyFile
  split
  · rfl
  · dsimp only
    split
    · rfl
    · split
      · rfl
      · split <;> rfl

theorem markdownCallback_error (env : Env) (config : Config) (layout : Bytes) (v : Visit)
    (fs : FS) (e : PassError) (h : (markdownCallback env config layout v fs).2 = some e) :
    v.err = true := by
  unfold markdownCallback at h
  cases hv : v.err with
  | true => rfl
  | false =>
    rw [hv] at h
    simp only [Bool.false_eq_true, if_false] at h
    split at h
    · cases h
    · split at h
      · cases h
      · rw [renderFile_no_error] at h
        cases h

theorem copyCallback_error (env : Env) (config : Config) (v : Visit)
    (fs : FS) (e : PassError) (h : (copyCallback env config v fs).2 = some e) :
    v.err = true := by
  unfold copyCallback at h
  cases hv : v.err with
  | true => rfl
  | false =>
    rw [hv] at h
    simp only [Bool.false_eq_true, if_false] at h
    split at h
    · cases h
    · split at h
      · cases h
      · rw [copyFile_no_error] at h
        cases h

theorem renderFile_fails (env : Env) (config : Config) (layout : Bytes) (v : Visit) (fs : FS)
    (h : markdownFails env config layout v fs) :
    renderFile env config layout v fs = (fs, none) := by
  unfold renderFile
  rcases h with h | ⟨md, hmd, hex⟩ | h
  · simp [h]
  · simp [hmd, hex]
  · cases hr : fs v.path with
    | none => rfl
    | some md =>
      dsimp only
      split
      · rfl
      · simp [h]

theorem copyFile_fails (env : Env) (config : Config) (v : Visit) (fs : FS)
    (h : copyFails env config v fs) :
    copyFile env config v fs = (fs, none) := by
  unfold copyFile
  rcases h with h | ⟨r, hr, h | h⟩ | h
  · simp [h]
  · simp [hr, h]
  · simp only [hr]
    split
    · rfl
    · split
      · rfl
      · simp [h]
  · cases hr : Rel config.PagesDir v.path with
    | none => rfl
    | some r =>
      dsimp only
      split
      · rfl
      · simp [h]

theorem markdownCallback_fails (env : Env) (config : Config) (layout : Bytes) (v : Visit)
    (fs : FS) (hv : v.err = false) (h : markdownFails env config layout v fs) :
    markdownCallback env config layout v fs = (fs, none) := by
  unfold markdownCallback
  simp only [hv, Bool.false_eq_true, if_false]
  split
  · rfl
  · split
    · rfl
    · exact renderFile_fails env config layout v fs h

theorem copyCallback_fails (env : Env) (config : Config) (v : Visit)
    (fs : FS) (hv : v.err = false) (h : copyFails env config v fs) :
    copyCallback env config v fs = (fs, none) := by
  unfold copyCallback
  simp only [hv, Bool.false_eq_true, if_false]
  split
  · rfl
  · split
    · rfl
    · exact copyFile_fails env config v fs h

/-- C5. The two passes split the files between them. The Markdown pass hands a
visited file to its body exactly when the file is not a directory and its
lower-cased name ends in `.md`, the asset pass exactly when it is not a
directory and its lower-cased name does not; no file is selected by both, the
files selected by one of them are the files that are not directories, and in
any walk the two selections together count every such file once. -/
theorem passes_partition_files (env : Env) (config : Config) (layout : Bytes) (v : Visit)
    (fs : FS) (visits : List Visit) :
    (markdownSelects env v.info = true
        ↔ v.info.isDir = false ∧ HasSuffix (env.toLower v.info.name) mdSuffix = true)
      ∧ (assetSelects env v.info = true
        ↔ v.info.isDir = false ∧ HasSuffix (env.toLower v.info.name) mdSuffix = false)
      ∧ (markdownSelects env v.info && assetSelects env v.info) = false
      ∧ (markdownSelects env v.info || assetSelects env v.info) = !v.info.isDir
      ∧ markdownCallback env config layout v fs
          = (if v.err then (fs, some PassError.walk)
             else if markdownSelects env v.info then renderFile env config layout v fs
             else (fs, none))
      ∧ copyCallback env config v fs
          = (if v.err then (fs, some PassError.walk)
             else if assetSelects env v.info then copyFile env config v fs
             else (fs, none))
      ∧ (visits.filter (fun u => markdownSelects env u.info)).length
          + (visits.filter (fun u => assetSelects env u.info)).length
          = (visits.filter (fun u => !u.info.isDir)).length := by
  refine ⟨?_, ?_, ?_, ?_, ?_, ?_, ?_⟩
  · simp [markdownSelects]
  · simp [assetSelects]
  · unfold markdownSelects assetSelects
    generalize v.info.isDir = d
    generalize HasSuffix (env.toLower v.info.name) mdSuffix = m
    cases d <;> cases m <;> rfl
  · unfold markdownSelects assetSelects
    generalize v.info.isDir = d
    generalize HasSuffix (env.toLower v.info.name) mdSuffix = m
    cases d <;> cases m <;> rfl
  · unfold markdownCallback markdownSelects
    cases v.err <;> cases v.info.isDir <;> cases HasSuffix (env.toLower v.info.name) mdSuffix <;>
      simp
  · unfold copyCallback assetSelects
    cases v.err <;> cases v.info.isDir <;> cases HasSuffix (env.toLower v.info.name) mdSuffix <;>
      simp
  · induction visits with
    | nil => rfl
    | cons u us ih =>
      simp only [List.filter_cons, markdownSelects, assetSelects] at ih ⊢
      cases u.info.isDir <;> cases HasSuffix (env.toLower u.info.name) mdSuffix <;>
        simp <;> omega

/-- C7. Both passes are fail-soft per file. When a visited file fails (read,
render or write in the Markdown pass; relative path, destination directory,
read or write in the asset pass), the walk function changes nothing and
returns no error, and the pass ends as it does on the walk without that file:
every other file is processed and the same result is returned. A pass returns
an error only when the layout cannot be read or parsed or when the walk itself
passes an error. -/
theorem passes_fail_soft (env : Env) (config : Config) (pre : List Visit) (v : Visit)
    (post : List Visit) (fs : FS) (hv : v.err = false) :
    (∀ layout, fs (Clean config.LayoutFile) = some layout →
        markdownFails env config layout v (Walk (markdownCallback env config layout) pre fs).1 →
        markdownCallback env config layout v (Walk (markdownCallback env config layout) pre fs).1
            = ((Walk (markdownCallback env config layout) pre fs).1, none)
          ∧ processMarkdownFiles env config (pre ++ v :: post) fs
            = processMarkdownFiles env config (pre ++ post) fs)
      ∧ (copyFails env config v (Walk (copyCallback env config) pre fs).1 →
        copyCallback env config v (Walk (copyCallback env config) pre fs).1
            = ((Walk (copyCallback env config) pre fs).1, none)
          ∧ copyNonMarkdownFiles env config (pre ++ v :: post) fs
            = copyNonMarkdownFiles env config (pre ++ post) fs)
      ∧ (∀ visits e, (processMarkdownFiles env config visits fs).2 = some e →
          fs (Clean config.LayoutFile) = none
            ∨ (∃ layout, fs (Clean config.LayoutFile) = some layout ∧ env.parses layout = false)
            ∨ ∃ u ∈ visits, u.err = true)
      ∧ (∀ visits e, (copyNonMarkdownFiles env config visits fs).2 = some e →
          ∃ u ∈ visits, u.err = true) := by
  refine ⟨?_, ?_, ?_, ?_⟩
  · intro layout hl hfail
    have hcb := markdownCallback_fails env config layout v _ hv hfail
    refine ⟨hcb, ?_⟩
    unfold processMarkdownFiles
    simp only [hl]
    split
    · exact Walk_skip _ pre v post fs hcb
    · rfl
  · intro hfail
    have hcb := copyCallback_fails env config v _ hv hfail
    exact ⟨hcb, Walk_skip _ pre v post fs hcb⟩
  · intro visits e he
    unfold processMarkdownFiles at he
    cases hl : fs (Clean config.LayoutFile) with
    | none => exact Or.inl rfl
    | some layout =>
      rw [hl] at he
      simp only at he
      cases hp : env.parses layout with
      | false => exact Or.inr (Or.inl ⟨layout, rfl, hp⟩)
      | true =>
        rw [hp] at he
        simp only [if_true] at he
        exact Or.inr (Or.inr (Walk_error _ (markdownCallback_error env config layout) visits fs e he))
  · intro visits e he
    exact Walk_error _ (copyCallback_error env config) visits fs e he

/-- Witness of C7: `pages/hello.md` cannot be read; the Markdown pass on the walk
that visits it ends as on the empty walk. -/
theorem passes_fail_soft_witness :
    helloVisit.err = false
      ∧ layoutOnlyFS (Clean defaultConfig.LayoutFile) = some [76]
      ∧ layoutOnlyFS helloVisit.path = none
      ∧ processMarkdownFiles plainEnv defaultConfig [helloVisit] layoutOnlyFS
          = processMarkdownFiles plainEnv defaultConfig [] layoutOnlyFS :=
  ⟨rfl, by decide, by decide,
    ((passes_fail_soft plainEnv defaultConfig [] helloVisit [] layoutOnlyFS rfl).1 [76]
      (by decide) (Or.inl (by decide))).2⟩
/-! ## Cleaned paths -/

/-- The functions `filepath.Clean`, `filepath.Join` and `filepath.Rel` on worked
strings: `tmp/../pages/sub` is `pages/sub`; `/tmp//out/./x/..` is `/tmp/out`;
`a/../..` is `..`; the file `pages/img/a.png` relative to `x/../pages` is
`img/a.png`; a rooted base and an unrooted target have no relative path. -/
theorem path_functions_examples :
    Clean [116, 109, 112, 47, 46, 46, 47, 112, 97, 103, 101, 115, 47, 115, 117, 98]
        = [pagesName, subName]
      ∧ Clean [47, 116, 109, 112, 47, 47, 111, 117, 116, 47, 46, 47, 120, 47, 46, 46]
        = [rootMark, [116, 109, 112], [111, 117, 116]]
      ∧ Clean [97, 47, 46, 46, 47, 46, 46] = [dotDot]
      ∧ Rel [120, 47, 46, 46, 47, 112, 97, 103, 101, 115] [pagesName, [105, 109, 103], pngName]
        = some [105, 109, 103, 47, 97, 46, 112, 110, 103]
      ∧ Rel [47, 112, 97, 103, 101, 115] [pagesName, pngName] = none
      ∧ Join [100, 105, 115, 116] [105, 109, 103, 47, 97, 46, 112, 110, 103]
        = [[100, 105, 115, 116], [105, 109, 103], pngName] := by
  decide

/-! ## The asset copy -/

theorem compareFile_changed (key : Bytes) (t : Int) (i : ModIndex) (c : Bool)
    (h : changedSince i (key, t)) : compareFile key t (i, c) = (i.set key t, true) := by
  unfold compareFile
  rcases h with h | ⟨lastMod, h, hlt⟩
  · simp only at h; simp [h]
  · simp only at h hlt; simp [h, hlt]

theorem compareFile_same (key : Bytes) (t : Int) (i : ModIndex) (c : Bool)
    (h : ¬ changedSince i (key, t)) : compareFile key t (i, c) = (i, c) := by
  unfold compareFile
  cases hk : i key with
  | none => exact absurd (Or.inl hk) h
  | some lastMod =>
    have : ¬ lastMod < t := fun hlt => h (Or.inr ⟨lastMod, hk, hlt⟩)
    simp [hk, this]

theorem scanWalk_fold : ∀ (visits : List Visit) (st : ModIndex × Bool),
    (Walk scanCallback visits st).1
      = List.foldl (fun s (e : Bytes × Int) => compareFile e.1 e.2 s) st
          (((reached visits).filter (fun v => !v.info.isDir)).map
            (fun v => (pathString v.path, v.info.modTime))) := by
  intro visits
  induction visits with
  | nil => intro st; rfl
  | cons v vs ih =>
    intro st
    cases he : v.err with
    | true => simp [Walk, scanCallback, reached, he]
    | false =>
      cases hd : v.info.isDir with
      | true => simp [Walk, scanCallback, reached, he, hd, ih]
      | false => simp [Walk, scanCallback, reached, he, hd, ih]

theorem scanCycle_fold (config : Config) (visits : List Visit) (layoutStat : Option FileInfo)
    (idx : ModIndex) :
    scanCycle config visits layoutStat idx
      = ((List.foldl (fun s (e : Bytes × Int) => compareFile e.1 e.2 s) (idx, false)
            (scannedFiles config visits layoutStat)).1,
         if (List.foldl (fun s (e : Bytes × Int) => compareFile e.1 e.2 s) (idx, false)
            (scannedFiles config visits layoutStat)).2
         then [PassCall.processMarkdownFiles, PassCall.copyNonMarkdownFiles] else []) := by
  unfold scanCycle scannedFiles
  rw [List.foldl_append, ← scanWalk_fold]
  cases layoutStat with
  | none => rfl
  | some info => rfl

theorem fold_flag : ∀ (es : List (Bytes × Int)) (i : ModIndex) (c : Bool),
    (List.foldl (fun s (e : Bytes × Int) => compareFile e.1 e.2 s) (i, c) es).2 = true
      ↔ c = true ∨ ∃ e ∈ es, changedSince i e := by
  intro es
  induction es with
  | nil => intro i c; simp
  | cons e es ih =>
    intro i c
    simp only [List.foldl_cons]
    by_cases h : changedSince i e
    · rw [compareFile_changed e.1 e.2 i c h, ih]
      constructor
      · intro _; exact Or.inr ⟨e, List.mem_cons_self _ _, h⟩
      · intro _; exact Or.inl rfl
    · rw [compareFile_same e.1 e.2 i c h, ih]
      constructor
      · rintro (hc | ⟨e1, he1, hch⟩)
        · exact Or.inl hc
        · exact Or.inr ⟨e1, List.mem_cons_of_mem _ he1, hch⟩
      · rintro (hc | ⟨e1, he1, hch⟩)
        · exact Or.inl hc
        · rcases List.mem_cons.1 he1 with heq | hmem
          · rw [heq] at hch; exact absurd hch h
          · exact Or.inr ⟨e1, hmem, hch⟩

theorem fold_index (mtime : Bytes → Int) : ∀ (es : List (Bytes × Int)) (i : ModIndex) (c : Bool),
    (∀ e ∈ es, e.2 = mtime e.1) →
    (∀ k, (List.foldl (fun s (e : Bytes × Int) => compareFile e.1 e.2 s) (i, c) es).1 k = i k
        ∨ (List.foldl (fun s (e : Bytes × Int) => compareFile e.1 e.2 s) (i, c) es).1 k
            = some (mtime k))
      ∧ (∀ e ∈ es, changedSince i e →
          (List.foldl (fun s (e : Bytes × Int) => compareFile e.1 e.2 s) (i, c) es).1 e.1
            = some e.2) := by
  intro es
  induction es with
  | nil => intro i c _; exact ⟨fun k => Or.inl rfl, fun e he => by cases he⟩
  | cons e0 es ih =>
    intro i c hcur
    have hcur0 : e0.2 = mtime e0.1 := hcur e0 (List.mem_cons_self _ _)
    have hcurs : ∀ e ∈ es, e.2 = mtime e.1 := fun e he => hcur e (List.mem_cons_of_mem _ he)
    simp only [List.foldl_cons]
    by_cases h : changedSince i e0
    · rw [compareFile_changed e0.1 e0.2 i c h]
      obtain ⟨ha, hb⟩ := ih (i.set e0.1 e0.2) true hcurs
      have hkey : ∀ k, k = e0.1 →
          (List.foldl (fun s (e : Bytes × Int) => compareFile e.1 e.2 s)
            (i.set e0.1 e0.2, true) es).1 k = some (mtime k) := by
        intro k hk
        rcases ha k with h1 | h1
        · rw [h1, hk]; simp [ModIndex.set, hcur0]
        · exact h1
      refine ⟨?_, ?_⟩
      · intro k
        by_cases hk : k = e0.1
        · exact Or.inr (hkey k hk)
        · rcases ha k with h1 | h1
          · left; rw [h1]; simp [ModIndex.set, hk]
          · exact Or.inr h1
      · intro e he hch
        by_cases hk : e.1 = e0.1
        · rw [hkey e.1 hk]
          rcases List.mem_cons.1 he with heq | hmem
          · rw [heq, hcur0]
          · rw [hcurs e hmem]
        · rcases List.mem_cons.1 he with heq | hmem
          · rw [heq] at hk; exact absurd rfl hk
          · apply hb e hmem
            rcases hch with h1 | ⟨lastMod, h1, hlt⟩
            · left; simp [ModIndex.set, hk, h1]
            · right; exact ⟨lastMod, by simp [ModIndex.set, hk, h1], hlt⟩
    · rw [compareFile_same e0.1 e0.2 i c h]
      obtain ⟨ha, hb⟩ := ih i c hcurs
      refine ⟨ha, ?_⟩
      intro e he hch
      rcases List.mem_cons.1 he with heq | hmem
      · rw [heq] at hch; exact absurd hch h
      · exact hb e hmem hch

/-- C4. In one scan cycle, with every scanned file seen at its current
modification time, the rebuild is called exactly when some scanned file is
absent from the stored index or has a modification time strictly later than the
stored one; when it is called, it is the Markdown pass and then the asset pass,
once each, however many files changed; and after the cycle the index maps
every such new or changed file to its current modification time. -/
theorem scan_cycle_rebuilds_once (config : Config) (visits : List Visit)
    (layoutStat : Option FileInfo) (fileModTimes : ModIndex) (mtime : Bytes → Int)
    (hcur : ∀ file ∈ scannedFiles config visits layoutStat, file.2 = mtime file.1) :
    ((scanCycle config visits layoutStat fileModTimes).2
          = [PassCall.processMarkdownFiles, PassCall.copyNonMarkdownFiles]
        ↔ ∃ file ∈ scannedFiles config visits layoutStat, changedSince fileModTimes file)
      ∧ ((scanCycle config visits layoutStat fileModTimes).2 = []
        ↔ ¬ ∃ file ∈ scannedFiles config visits layoutStat, changedSince fileModTimes file)
      ∧ (∀ file ∈ scannedFiles config visits layoutStat, changedSince fileModTimes file →
          (scanCycle config visits layoutStat fileModTimes).1 file.1 = some (mtime file.1)) := by
  have hflag := fold_flag (scannedFiles config visits layoutStat) fileModTimes false
  have hidx := fold_index mtime (scannedFiles config visits layoutStat) fileModTimes false hcur
  simp only [Bool.false_eq_true, false_or] at hflag
  rw [scanCycle_fold]
  refine ⟨?_, ?_, ?_⟩
  · rw [← hflag]
    cases (List.foldl (fun s (e : Bytes × Int) => compareFile e.1 e.2 s) (fileModTimes, false)
      (scannedFiles config visits layoutStat)).2 <;> simp
  · rw [← hflag]
    cases (List.foldl (fun s (e : Bytes × Int) => compareFile e.1 e.2 s) (fileModTimes, false)
      (scannedFiles config visits layoutStat)).2 <;> simp
  · intro file hf hch
    rw [← hcur file hf]
    exact hidx.2 file hf hch

/-- Witness of C4, the example of the specification: the index holds
`pages/hello.md` at time 3 and the scan sees it at time 7. -/
theorem scan_cycle_rebuilds_once_witness :
    (∀ file ∈ scannedFiles defaultConfig [helloVisit] none, file.2 = (fun _ => (7 : Int)) file.1)
      ∧ (scanCycle defaultConfig [helloVisit] none helloIndex).1 (pathString helloVisit.path)
          = some 7 :=
  ⟨by decide,
    (scan_cycle_rebuilds_once defaultConfig [helloVisit] none helloIndex (fun _ => 7)
      (by decide)).2.2 (pathString helloVisit.path, 7) (by decide)
      (Or.inr ⟨3, by decide, by decide⟩)⟩

end EasyPages
